import Mathlib

/-!
Verification development for the Primerool primer-design core.

The definitions below are shallow embeddings of the Python source:
`app.py` (block ordering and junction derivation), `ensembl_api.py`
(reverse complement, genomic-to-spliced CDS projection) and
`primer_junction.py` (junction candidate generation, scoring,
right-candidate pairing).  Machine reals (Python floats such as melting
temperatures and GC percentages) are modelled as rationals; the external
thermodynamic oracle (primer3) is modelled as an explicit function
parameter.  Theorems then settle the specified properties of these
embedded operations.
-/

set_option allowUnsafeReducibility true
attribute [local semireducible] Rat.sub Rat.add Rat.neg Rat.mul Rat.div

namespace Primerool

/-- Closed-interval length, `end - start + 1` (intervals are 1-based inclusive). -/
def intervalLen (p : Int × Int) : Int := p.2 - p.1 + 1

/-- Lexicographic order on integer pairs; this is the order Python's
`sorted` uses on 2-tuples. -/
def tupLe (a b : Int × Int) : Prop := a.1 < b.1 ∨ (a.1 = b.1 ∧ a.2 ≤ b.2)

instance : DecidableRel tupLe := fun a b => by unfold tupLe; infer_instance

instance : IsTotal (Int × Int) tupLe := by
  constructor
  intro a b
  unfold tupLe
  omega

instance : IsTrans (Int × Int) tupLe := by
  constructor
  intro a b c hab hbc
  unfold tupLe at *
  omega

/-- Embedding of Python `sorted` on a list of integer pairs (insertion sort
is a stable sort, as Python's `list.sort` is). -/
def sortPairs (l : List (Int × Int)) : List (Int × Int) := List.insertionSort tupLe l

theorem sortPairs_perm (l : List (Int × Int)) : List.Perm (sortPairs l) l :=
  List.perm_insertionSort tupLe l

theorem sortPairs_sorted (l : List (Int × Int)) : List.Sorted tupLe (sortPairs l) :=
  List.sorted_insertionSort tupLe l

/- ----------------------------------------------------------------------
`ensembl_api.py`, reverse complement:
`comp = str.maketrans("ACGTacgt", "TGCAtgca"); seq.translate(comp)[::-1]`
---------------------------------------------------------------------- -/

/-- The nucleotide substitution table `str.maketrans("ACGTacgt", "TGCAtgca")`:
characters in the table are substituted, all others pass through. -/
def compChar (c : Char) : Char :=
  if c = 'A' then 'T'
  else if c = 'C' then 'G'
  else if c = 'G' then 'C'
  else if c = 'T' then 'A'
  else if c = 'a' then 't'
  else if c = 'c' then 'g'
  else if c = 'g' then 'c'
  else if c = 't' then 'a'
  else c

/-- Reverse complement as in `build_spliced_sequence` / `get_flanking_sequence`:
translate through the substitution table, then reverse (`[::-1]`). -/
def reverse_complement (s : String) : String :=
  String.mk ((s.data.map compChar).reverse)

theorem compChar_compChar (c : Char) : compChar (compChar c) = c := by
  by_cases hA : c = 'A'
  · subst hA; rfl
  by_cases hC : c = 'C'
  · subst hC; rfl
  by_cases hG : c = 'G'
  · subst hG; rfl
  by_cases hT : c = 'T'
  · subst hT; rfl
  by_cases ha : c = 'a'
  · subst ha; rfl
  by_cases hc : c = 'c'
  · subst hc; rfl
  by_cases hg : c = 'g'
  · subst hg; rfl
  by_cases ht : c = 't'
  · subst ht; rfl
  have hfix : compChar c = c := by
    unfold compChar
    simp [hA, hC, hG, hT, ha, hc, hg, ht]
  rw [hfix, hfix]

/-- Claim C10: reverse complement (fixed substitution `A↔T`, `C↔G`,
case-preserving, followed by reversal) is an involution on every string over
the alphabet handled by the substitution table. -/
theorem reverse_complement_involution (s : String)
    (h : ∀ c ∈ s.data, c ∈ ['A', 'C', 'G', 'T', 'a', 'c', 'g', 't']) :
    reverse_complement (reverse_complement s) = s := by
  obtain ⟨l⟩ := s
  refine congrArg String.mk ?_
  show ((l.map compChar).reverse.map compChar).reverse = l
  rw [List.map_reverse, List.reverse_reverse, List.map_map]
  have hid : compChar ∘ compChar = id := by
    funext c
    exact compChar_compChar c
  rw [hid, List.map_id]

/-- Witness for C10 at the concrete string "ACGTacgt". -/
theorem reverse_complement_involution_witness :
    (∀ c ∈ ("ACGTacgt" : String).data, c ∈ ['A', 'C', 'G', 'T', 'a', 'c', 'g', 't']) ∧
    reverse_complement (reverse_complement "ACGTacgt") = "ACGTacgt" :=
  ⟨by decide, reverse_complement_involution "ACGTacgt" (by decide)⟩

/- ----------------------------------------------------------------------
`app.py`, `_blocks_for_spliced_sequence` and `_junctions_from_blocks`
---------------------------------------------------------------------- -/

/-- One junction record as built by `_junctions_from_blocks`. -/
structure Junction where
  index : Nat
  pos : Int
  label : String
deriving DecidableEq

/-- Embedding of `_blocks_for_spliced_sequence`: sort the feature intervals
by genomic start ascending, reverse when the strand is `-`. -/
def blocks_for_spliced_sequence (intervals : List (Int × Int)) (strand : String) :
    List (Int × Int) :=
  if intervals = [] then []
  else
    let blocks := sortPairs intervals
    if strand = "-" then blocks.reverse else blocks

/-- The accumulation loop of `_junctions_from_blocks`: `cum` is the spliced
length consumed so far and `i` the 0-based block index; a junction is emitted
after every non-final block. -/
def junctionsGo : Nat → Int → List (Int × Int) → List Junction
  | _, _, [] => []
  | _, _, [_] => []
  | i, cum, b :: c :: rest =>
      { index := i
        pos := cum + intervalLen b
        label := "Exon " ++ toString (i + 1) ++ "|" ++ toString (i + 2) } ::
      junctionsGo (i + 1) (cum + intervalLen b) (c :: rest)

/-- Embedding of `_junctions_from_blocks`. -/
def junctions_from_blocks (blocks : List (Int × Int)) : List Junction :=
  junctionsGo 0 0 blocks

theorem junctionsGo_length (bs : List (Int × Int)) :
    ∀ i cum, (junctionsGo i cum bs).length = bs.length - 1 := by
  induction bs with
  | nil => intro i cum; rfl
  | cons b t ih =>
    intro i cum
    cases t with
    | nil => rfl
    | cons c r =>
      show (junctionsGo i cum (b :: c :: r)).length = (b :: c :: r).length - 1
      rw [junctionsGo]
      simp only [List.length_cons]
      rw [ih]
      simp

theorem junctionsGo_pos_bounds (bs : List (Int × Int)) :
    ∀ i cum, (∀ p ∈ bs, p.1 ≤ p.2) →
      ∀ j ∈ junctionsGo i cum bs,
        cum < j.pos ∧ j.pos < cum + (bs.map intervalLen).sum := by
  induction bs with
  | nil => intro i cum _ j hj; simp [junctionsGo] at hj
  | cons b t ih =>
    intro i cum hwf j hj
    cases t with
    | nil => simp [junctionsGo] at hj
    | cons c r =>
      rw [junctionsGo] at hj
      have hb : b.1 ≤ b.2 := hwf b (by simp)
      have hc : c.1 ≤ c.2 := hwf c (by simp)
      have hrest : ∀ p ∈ (c :: r), p.1 ≤ p.2 := by
        intro p hp
        exact hwf p (List.mem_cons_of_mem b hp)
      have hsum : 0 ≤ ((c :: r).map intervalLen).sum := by
        apply List.sum_nonneg
        intro x hx
        simp only [List.mem_map] at hx
        obtain ⟨p, hp, hpx⟩ := hx
        have := hrest p hp
        subst hpx
        unfold intervalLen
        omega
      rw [List.mem_cons] at hj
      rcases hj with hj | hj
      · subst hj
        simp only [List.map_cons, List.sum_cons]
        unfold intervalLen
        constructor
        · omega
        · have hcpos : (0 : Int) < intervalLen c := by unfold intervalLen; omega
          have : ((c :: r).map intervalLen).sum > 0 := by
            simp only [List.map_cons, List.sum_cons]
            have : 0 ≤ (r.map intervalLen).sum := by
              apply List.sum_nonneg
              intro x hx
              simp only [List.mem_map] at hx
              obtain ⟨p, hp, hpx⟩ := hx
              have := hrest p (List.mem_cons_of_mem c hp)
              subst hpx
              unfold intervalLen
              omega
            unfold intervalLen at *
            omega
          simp only [List.map_cons, List.sum_cons] at this ⊢
          unfold intervalLen at *
          omega
      · have := ih (i + 1) (cum + intervalLen b) hrest j hj
        simp only [List.map_cons, List.sum_cons] at this ⊢
        have hbpos : (0 : Int) < intervalLen b := by unfold intervalLen; omega
        omega

theorem junctionsGo_get (bs : List (Int × Int)) :
    ∀ i cum n (h : n < (junctionsGo i cum bs).length),
      ((junctionsGo i cum bs).get ⟨n, h⟩).pos =
        cum + ((bs.take (n + 1)).map intervalLen).sum := by
  induction bs with
  | nil => intro i cum n h; simp [junctionsGo] at h
  | cons b t ih =>
    intro i cum n h
    cases t with
    | nil => simp [junctionsGo] at h
    | cons c r =>
      cases n with
      | zero =>
        show (junctionsGo i cum (b :: c :: r))[0].pos = _
        simp only [junctionsGo]
        simp
      | succ m =>
        have h' : m < (junctionsGo (i + 1) (cum + intervalLen b) (c :: r)).length := by
          rw [junctionsGo] at h
          simpa using h
        have := ih (i + 1) (cum + intervalLen b) m h'
        show (junctionsGo i cum (b :: c :: r))[m + 1].pos = _
        simp only [junctionsGo]
        simp only [List.getElem_cons_succ]
        rw [show (junctionsGo (i + 1) (cum + intervalLen b) (c :: r))[m] =
          (junctionsGo (i + 1) (cum + intervalLen b) (c :: r)).get ⟨m, h'⟩ from rfl]

        rw [this]
        simp only [List.take_succ_cons, List.map_cons, List.sum_cons]
        ring

theorem junctionsGo_pos_strictMono (bs : List (Int × Int)) :
    ∀ i cum, (∀ p ∈ bs, p.1 ≤ p.2) →
      ((junctionsGo i cum bs).map Junction.pos).Pairwise (fun a b => a < b) := by
  induction bs with
  | nil => intro i cum _; simp [junctionsGo]
  | cons b t ih =>
    intro i cum hwf
    cases t with
    | nil => simp [junctionsGo]
    | cons c r =>
      rw [junctionsGo]
      simp only [List.map_cons, List.pairwise_cons]
      have hrest : ∀ p ∈ (c :: r), p.1 ≤ p.2 := fun p hp => hwf p (List.mem_cons_of_mem b hp)
      constructor
      · intro x hx
        simp only [List.mem_map] at hx
        obtain ⟨j, hj, hjx⟩ := hx
        have hb := junctionsGo_pos_bounds (c :: r) (i + 1) (cum + intervalLen b) hrest j hj
        subst hjx
        show cum + intervalLen b < j.pos
        omega
      · exact ih (i + 1) (cum + intervalLen b) hrest

/-- Claim C1: for a block list derived (by `_blocks_for_spliced_sequence`)
from `k ≥ 1` well-formed exon intervals, `_junctions_from_blocks` yields
exactly `k - 1` junctions; the `i`-th junction's `pos` is the sum of the
lengths of the first `i + 1` blocks; the `pos` values are strictly
increasing; and every junction `pos` (in particular the final one) is
strictly below the total spliced length. -/
theorem junctions_spec (exons : List (Int × Int)) (strand : String) (k : Nat)
    (hk : exons.length = k) (hk1 : 1 ≤ k)
    (hwf : ∀ p ∈ exons, p.1 ≤ p.2) :
    (junctions_from_blocks (blocks_for_spliced_sequence exons strand)).length = k - 1 ∧
    (∀ n (h : n < (junctions_from_blocks (blocks_for_spliced_sequence exons strand)).length),
      ((junctions_from_blocks (blocks_for_spliced_sequence exons strand)).get ⟨n, h⟩).pos =
        (((blocks_for_spliced_sequence exons strand).take (n + 1)).map intervalLen).sum) ∧
    ((junctions_from_blocks (blocks_for_spliced_sequence exons strand)).map
        Junction.pos).Pairwise (fun a b => a < b) ∧
    (∀ j ∈ junctions_from_blocks (blocks_for_spliced_sequence exons strand),
      j.pos < ((blocks_for_spliced_sequence exons strand).map intervalLen).sum) := by
  set bs := blocks_for_spliced_sequence exons strand with hbs
  have hlen : bs.length = k := by
    rw [hbs]
    unfold blocks_for_spliced_sequence
    split
    · rename_i he
      subst he
      simpa using hk.symm ▸ hk
    · split
      · rw [List.length_reverse, (sortPairs_perm exons).length_eq, hk]
      · rw [(sortPairs_perm exons).length_eq, hk]
  have hbwf : ∀ p ∈ bs, p.1 ≤ p.2 := by
    intro p hp
    rw [hbs] at hp
    unfold blocks_for_spliced_sequence at hp
    apply hwf
    by_cases he : exons = []
    · simp [he] at hp
    · simp only [if_neg he] at hp
      by_cases hs : strand = "-"
      · simp only [if_pos hs, List.mem_reverse] at hp
        exact ((sortPairs_perm exons).mem_iff).1 hp
      · simp only [if_neg hs] at hp
        exact ((sortPairs_perm exons).mem_iff).1 hp
  refine ⟨?_, ?_, ?_, ?_⟩
  · unfold junctions_from_blocks
    rw [junctionsGo_length, hlen]
  · intro n h
    unfold junctions_from_blocks at *
    have := junctionsGo_get bs 0 0 n h
    rw [this]
    ring
  · exact junctionsGo_pos_strictMono bs 0 0 hbwf
  · intro j hj
    have := junctionsGo_pos_bounds bs 0 0 hbwf j hj
    omega

/-- Witness for C1 at a concrete 3-exon minus-strand transcript. -/
theorem junctions_spec_witness :
    (([( (10 : Int), (12 : Int) ), ((1 : Int), (3 : Int)), ((20 : Int), (25 : Int))] :
        List (Int × Int)).length = 3 ∧ 1 ≤ 3 ∧
      (∀ p ∈ ([((10 : Int), (12 : Int)), ((1 : Int), (3 : Int)), ((20 : Int), (25 : Int))] :
        List (Int × Int)), p.1 ≤ p.2)) ∧
    (junctions_from_blocks (blocks_for_spliced_sequence
      [((10 : Int), (12 : Int)), ((1 : Int), (3 : Int)), ((20 : Int), (25 : Int))] "-")).length
        = 3 - 1 := by
  refine ⟨⟨by decide, by decide, by decide⟩, ?_⟩
  exact (junctions_spec
    [((10 : Int), (12 : Int)), ((1 : Int), (3 : Int)), ((20 : Int), (25 : Int))] "-" 3
    (by decide) (by decide) (by decide)).1

/- ----------------------------------------------------------------------
`primer_junction.py`, junction-spanning candidate generation
(the double loop over `left_ov`/`right_ov` in `design_junction_primer_pairs`)
---------------------------------------------------------------------- -/

/-- Python `range(a, b + 1)` (the loop `for v in range(lo, hi + 1)`). -/
def rangeIncl (a b : Int) : List Int :=
  (List.range (b + 1 - a).toNat).map (fun (k : Nat) => a + (k : Int))

theorem mem_rangeIncl (a b x : Int) : x ∈ rangeIncl a b ↔ a ≤ x ∧ x ≤ b := by
  unfold rangeIncl
  simp only [List.mem_map, List.mem_range]
  constructor
  · rintro ⟨k, hk, rfl⟩
    omega
  · rintro ⟨h1, h2⟩
    exact ⟨(x - a).toNat, by omega, by omega⟩

theorem rangeIncl_nodup (a b : Int) : (rangeIncl a b).Nodup := by
  unfold rangeIncl
  refine List.Nodup.map ?_ (List.nodup_range _)
  intro k1 k2 h
  have h2 : a + (k1 : Int) = a + (k2 : Int) := h
  omega

/-- The body of the candidate double loop: for one `(left_ov, right_ov)`
combination, either skip (length or window bound violated) or emit the span
`(j - left_ov, j + right_ov)`. -/
def junctionSpanFor (n j primerMin primerMax : Int) (leftOv rightOv : Int) :
    Option (Int × Int) :=
  if leftOv + rightOv < primerMin ∨ leftOv + rightOv > primerMax then none
  else if j - leftOv < 0 ∨ j + rightOv > n then none
  else some (j - leftOv, j + rightOv)

/-- Embedding of the junction-spanning candidate generation loop of
`design_junction_primer_pairs` (lines 97-107). -/
def junction_candidates (n j overlapMin overlapMax primerMin primerMax : Int) :
    List (Int × Int) :=
  (rangeIncl overlapMin overlapMax).flatMap (fun leftOv =>
    (rangeIncl overlapMin overlapMax).filterMap
      (junctionSpanFor n j primerMin primerMax leftOv))

theorem junctionSpanFor_eq_some (n j pMin pMax lo ro : Int) (p : Int × Int) :
    junctionSpanFor n j pMin pMax lo ro = some p ↔
      pMin ≤ lo + ro ∧ lo + ro ≤ pMax ∧ 0 ≤ j - lo ∧ j + ro ≤ n ∧
        p = (j - lo, j + ro) := by
  unfold junctionSpanFor
  constructor
  · intro h
    split_ifs at h with h1 h2
    rw [Option.some_inj] at h
    exact ⟨by omega, by omega, by omega, by omega, h.symm⟩
  · rintro ⟨h1, h2, h3, h4, rfl⟩
    rw [if_neg (by omega), if_neg (by omega)]

theorem mem_junction_candidates (n j ovMin ovMax pMin pMax : Int) (p : Int × Int) :
    p ∈ junction_candidates n j ovMin ovMax pMin pMax ↔
      ∃ lo ro, ovMin ≤ lo ∧ lo ≤ ovMax ∧ ovMin ≤ ro ∧ ro ≤ ovMax ∧
        pMin ≤ lo + ro ∧ lo + ro ≤ pMax ∧ 0 ≤ j - lo ∧ j + ro ≤ n ∧
        p = (j - lo, j + ro) := by
  unfold junction_candidates
  rw [List.mem_flatMap]
  constructor
  · rintro ⟨lo, hlo, hmem⟩
    rw [List.mem_filterMap] at hmem
    obtain ⟨ro, hro, hsome⟩ := hmem
    rw [mem_rangeIncl] at hlo hro
    rw [junctionSpanFor_eq_some] at hsome
    exact ⟨lo, ro, hlo.1, hlo.2, hro.1, hro.2, hsome.1, hsome.2.1, hsome.2.2.1,
      hsome.2.2.2.1, hsome.2.2.2.2⟩
  · rintro ⟨lo, ro, h1, h2, h3, h4, h5, h6, h7, h8, rfl⟩
    refine ⟨lo, (mem_rangeIncl _ _ _).2 ⟨h1, h2⟩, ?_⟩
    rw [List.mem_filterMap]
    exact ⟨ro, (mem_rangeIncl _ _ _).2 ⟨h3, h4⟩,
      (junctionSpanFor_eq_some _ _ _ _ _ _ _).2 ⟨h5, h6, h7, h8, rfl⟩⟩

theorem junction_candidates_nodup (n j ovMin ovMax pMin pMax : Int) :
    (junction_candidates n j ovMin ovMax pMin pMax).Nodup := by
  unfold junction_candidates
  rw [List.nodup_flatMap]
  constructor
  · intro lo _
    refine List.Nodup.filterMap ?_ (rangeIncl_nodup _ _)
    intro ro ro' p hp hp'
    rw [Option.mem_def, junctionSpanFor_eq_some] at hp hp'
    have e1 := hp.2.2.2.2
    have e2 := hp'.2.2.2.2
    rw [e1] at e2
    have : j + ro = j + ro' := congrArg Prod.snd e2
    omega
  · have hne := (rangeIncl_nodup ovMin ovMax)
    refine hne.imp ?_
    intro lo lo' hne'
    intro p hp hp'
    rw [List.mem_filterMap] at hp hp'
    obtain ⟨ro, _, hsome⟩ := hp
    obtain ⟨ro', _, hsome'⟩ := hp'
    rw [junctionSpanFor_eq_some] at hsome hsome'
    have e1 := hsome.2.2.2.2
    have e2 := hsome'.2.2.2.2
    rw [e1] at e2
    have : j - lo = j - lo' := congrArg Prod.fst e2
    omega

theorem junction_candidates_length (n j ovMin ovMax pMin pMax : Int)
    (hov : ovMin ≤ ovMax) :
    ((junction_candidates n j ovMin ovMax pMin pMax).length : Int) ≤
      (ovMax - ovMin + 1) ^ 2 := by
  unfold junction_candidates
  rw [List.length_flatMap]
  have hb : ∀ x ∈ (rangeIncl ovMin ovMax).map
      (List.length ∘ fun lo => (rangeIncl ovMin ovMax).filterMap
        (junctionSpanFor n j pMin pMax lo)),
      x ≤ (rangeIncl ovMin ovMax).length := by
    intro x hx
    rw [List.mem_map] at hx
    obtain ⟨lo, _, rfl⟩ := hx
    exact List.length_filterMap_le _ _
  have := List.sum_le_card_nsmul _ _ hb
  rw [List.length_map, smul_eq_mul] at this
  have hlen : ((rangeIncl ovMin ovMax).length : Int) = ovMax - ovMin + 1 := by
    unfold rangeIncl
    rw [List.length_map, List.length_range]
    omega
  have hcast : ((((rangeIncl ovMin ovMax).map
      (List.length ∘ fun lo => (rangeIncl ovMin ovMax).filterMap
        (junctionSpanFor n j pMin pMax lo))).sum : Nat) : Int) ≤
      (((rangeIncl ovMin ovMax).length * (rangeIncl ovMin ovMax).length : Nat) : Int) := by
    exact_mod_cast this
  rw [Nat.cast_mul, hlen] at hcast
  calc (((rangeIncl ovMin ovMax).map
      (List.length ∘ fun lo => (rangeIncl ovMin ovMax).filterMap
        (junctionSpanFor n j pMin pMax lo))).sum : Int)
      ≤ (ovMax - ovMin + 1) * (ovMax - ovMin + 1) := hcast
    _ = (ovMax - ovMin + 1) ^ 2 := by ring

/-- Claim C3: the candidate generator emits exactly the spans
`(j - left_ov, j + right_ov)` over admissible overlap combinations; every
emitted span has length within the primer-length bounds, spans the junction
with at least `overlap_min` bases on each side and lies within `[0, n]`;
there are no duplicate spans; and there are at most
`(overlap_max - overlap_min + 1)^2` candidates. -/
theorem candidate_generator_spec (n j ovMin ovMax pMin pMax : Int)
    (hj0 : 0 ≤ j) (hjn : j ≤ n) (hov : ovMin ≤ ovMax) (hpm : pMin ≤ pMax) :
    (∀ p : Int × Int, p ∈ junction_candidates n j ovMin ovMax pMin pMax ↔
      ∃ lo ro, ovMin ≤ lo ∧ lo ≤ ovMax ∧ ovMin ≤ ro ∧ ro ≤ ovMax ∧
        pMin ≤ lo + ro ∧ lo + ro ≤ pMax ∧ 0 ≤ j - lo ∧ j + ro ≤ n ∧
        p = (j - lo, j + ro)) ∧
    (∀ p ∈ junction_candidates n j ovMin ovMax pMin pMax,
      pMin ≤ p.2 - p.1 ∧ p.2 - p.1 ≤ pMax ∧
      ovMin ≤ j - p.1 ∧ ovMin ≤ p.2 - j ∧ 0 ≤ p.1 ∧ p.2 ≤ n) ∧
    (junction_candidates n j ovMin ovMax pMin pMax).Nodup ∧
    ((junction_candidates n j ovMin ovMax pMin pMax).length : Int) ≤
      (ovMax - ovMin + 1) ^ 2 := by
  refine ⟨mem_junction_candidates n j ovMin ovMax pMin pMax, ?_,
    junction_candidates_nodup n j ovMin ovMax pMin pMax,
    junction_candidates_length n j ovMin ovMax pMin pMax hov⟩
  intro p hp
  rw [mem_junction_candidates] at hp
  obtain ⟨lo, ro, h1, h2, h3, h4, h5, h6, h7, h8, rfl⟩ := hp
  simp only
  constructor
  · omega
  constructor
  · omega
  constructor
  · omega
  constructor
  · omega
  constructor
  · omega
  · omega

/-- Witness for C3 at the spec's concrete parameters
`overlap 6..12`, `primer length 18..25`, `j = 300`, `n = 700`. -/
theorem candidate_generator_spec_witness :
    ((0 : Int) ≤ 300 ∧ (300 : Int) ≤ 700 ∧ (6 : Int) ≤ 12 ∧ (18 : Int) ≤ 25) ∧
    ((junction_candidates 700 300 6 12 18 25).length : Int) ≤ (12 - 6 + 1) ^ 2 :=
  ⟨⟨by decide, by decide, by decide, by decide⟩,
    (candidate_generator_spec 700 300 6 12 18 25
      (by decide) (by decide) (by decide) (by decide)).2.2.2⟩

/- ----------------------------------------------------------------------
`primer_junction.py`, candidate scoring (lines 136-153):
score, stable sort by score, truncation to `max_candidates`
---------------------------------------------------------------------- -/

/-- Python slice `s[a:b]` for `0 ≤ a ≤ b ≤ len(s)`. -/
def sliceStr (s : String) (a b : Int) : String :=
  String.mk ((s.data.drop a.toNat).take (b - a).toNat)

/-- One scored junction candidate: the tuple `(score, (start, end), analysis)`
kept by the scorer; of the analysis dict we retain the melting temperature,
which is all the pairing stage reads. -/
structure LeftScored where
  score : ℚ
  span : Int × Int
  tm : ℚ
deriving DecidableEq

/-- Comparison used by `scored.sort(key=lambda x: x[0])`. -/
def scoreLe (x y : LeftScored) : Prop := x.score ≤ y.score

instance : DecidableRel scoreLe := fun x y => by unfold scoreLe; infer_instance

instance : IsTotal LeftScored scoreLe :=
  ⟨fun a b => le_total a.score b.score⟩

instance : IsTrans LeftScored scoreLe :=
  ⟨fun _ _ _ h1 h2 => le_trans h1 h2⟩

/-- `scoreLe` lifted to index-carrying candidates (compares scores only). -/
def scoreLeIdx (x y : Nat × LeftScored) : Prop := x.2.score ≤ y.2.score

instance : DecidableRel scoreLeIdx := fun x y => by unfold scoreLeIdx; infer_instance

/-- The canonical stable comparison: by score, ties broken by generation
index.  A sort by `stableLe` is the specification of a stable sort by score. -/
def stableLe (x y : Nat × LeftScored) : Prop :=
  x.2.score < y.2.score ∨ (x.2.score = y.2.score ∧ x.1 ≤ y.1)

instance : DecidableRel stableLe := fun x y => by unfold stableLe; infer_instance

/-- Scoring of one candidate span (loop body, lines 139-150): melting
temperature distance from the optimum plus a 5.0 penalty when the GC
percentage is outside the 35..65 band. -/
def mkScored (optTm : ℚ) (analyze : String → ℚ × ℚ) (localSeq : String)
    (c : Int × Int) : LeftScored :=
  { score := |(analyze (sliceStr localSeq c.1 c.2)).1 - optTm| +
      (if (analyze (sliceStr localSeq c.1 c.2)).2 < 35 ∨
          (analyze (sliceStr localSeq c.1 c.2)).2 > 65 then 5 else 0)
    span := c
    tm := (analyze (sliceStr localSeq c.1 c.2)).1 }

/-- Embedding of the scorer: score every candidate, sort ascending by score
(Python `list.sort` is stable; insertion sort is its embedding), truncate to
`max_candidates`. -/
def score_candidates (optTm : ℚ) (maxC : Nat) (analyze : String → ℚ × ℚ)
    (localSeq : String) (cands : List (Int × Int)) : List LeftScored :=
  (List.insertionSort scoreLe (cands.map (mkScored optTm analyze localSeq))).take maxC

theorem map_snd_orderedInsert (a : Nat × LeftScored) (s : List (Nat × LeftScored)) :
    (List.orderedInsert scoreLeIdx a s).map Prod.snd =
      List.orderedInsert scoreLe a.2 (s.map Prod.snd) := by
  induction s with
  | nil => rfl
  | cons c t ih =>
    simp only [List.orderedInsert, List.map_cons]
    by_cases h : scoreLe a.2 c.2
    · have h1 : scoreLeIdx a c := h
      rw [if_pos h1, if_pos h]
      simp
    · have h1 : ¬ scoreLeIdx a c := h
      rw [if_neg h1, if_neg h, List.map_cons, ih]

theorem map_snd_insertionSort (el : List (Nat × LeftScored)) :
    (List.insertionSort scoreLeIdx el).map Prod.snd =
      List.insertionSort scoreLe (el.map Prod.snd) := by
  induction el with
  | nil => rfl
  | cons a t ih =>
    simp only [List.insertionSort, List.map_cons]
    rw [map_snd_orderedInsert, ih]

theorem orderedInsert_congr_stable (a : Nat × LeftScored)
    (s : List (Nat × LeftScored))
    (h : ∀ c ∈ s, (scoreLeIdx a c ↔ stableLe a c)) :
    List.orderedInsert scoreLeIdx a s = List.orderedInsert stableLe a s := by
  induction s with
  | nil => rfl
  | cons c t ih =>
    simp only [List.orderedInsert]
    by_cases hc : scoreLeIdx a c
    · rw [if_pos hc, if_pos ((h c (by simp)).1 hc)]
    · rw [if_neg hc, if_neg (fun hx => hc ((h c (by simp)).2 hx)),
        ih (fun d hd => h d (by simp [hd]))]

theorem enumFrom_pairwise_fst {α : Type} (l : List α) :
    ∀ n, (List.enumFrom n l).Pairwise (fun a b => a.1 < b.1) := by
  induction l with
  | nil => intro n; simp
  | cons a t ih =>
    intro n
    rw [List.enumFrom_cons, List.pairwise_cons]
    refine ⟨?_, ih (n + 1)⟩
    intro x hx
    have := List.le_fst_of_mem_enumFrom hx
    omega

theorem enum_pairwise_fst {α : Type} (l : List α) :
    (l.enum).Pairwise (fun a b => a.1 < b.1) :=
  enumFrom_pairwise_fst l 0

theorem insertionSort_stable_eq (el : List (Nat × LeftScored))
    (hp : el.Pairwise (fun a b => a.1 < b.1)) :
    List.insertionSort scoreLeIdx el = List.insertionSort stableLe el := by
  induction el with
  | nil => rfl
  | cons a t ih =>
    rw [List.pairwise_cons] at hp
    simp only [List.insertionSort]
    rw [ih hp.2]
    apply orderedInsert_congr_stable
    intro c hc
    have hmem : c ∈ t := (List.perm_insertionSort stableLe t).mem_iff.1 hc
    have hidx : a.1 < c.1 := hp.1 c hmem
    unfold scoreLeIdx stableLe
    constructor
    · intro hle
      rcases lt_or_eq_of_le hle with hlt | heq
      · exact Or.inl hlt
      · exact Or.inr ⟨heq, by omega⟩
    · intro hx
      rcases hx with hlt | heq
      · exact le_of_lt hlt
      · exact le_of_eq heq.1

theorem score_candidates_stable (optTm : ℚ) (maxC : Nat)
    (analyze : String → ℚ × ℚ) (localSeq : String) (cands : List (Int × Int)) :
    score_candidates optTm maxC analyze localSeq cands =
      ((List.insertionSort stableLe
          ((cands.map (mkScored optTm analyze localSeq)).enum)).map Prod.snd).take
        maxC := by
  unfold score_candidates
  have key : List.insertionSort scoreLe (cands.map (mkScored optTm analyze localSeq)) =
      (List.insertionSort stableLe
        ((cands.map (mkScored optTm analyze localSeq)).enum)).map Prod.snd := by
    rw [← insertionSort_stable_eq _ (enum_pairwise_fst _)]
    rw [map_snd_insertionSort, List.enum_map_snd]
  rw [key]

/-- Claim C4: the scorer assigns `score = |tm - optimal| + 5.0` exactly when
the GC percentage is outside the 35..65 band (else no penalty); the output is
sorted ascending by score; it equals (up to the truncation) the canonical
stable sort by `(score, generation index)`, so ties keep generation order;
it is truncated to the requested maximum; being a pure function of its
inputs, its output is deterministic. -/
theorem candidate_scorer_spec (optTm : ℚ) (maxC : Nat)
    (analyze : String → ℚ × ℚ) (localSeq : String) (cands : List (Int × Int)) :
    (∀ s ∈ cands.map (mkScored optTm analyze localSeq),
      s.score = |s.tm - optTm| +
        (if (analyze (sliceStr localSeq s.span.1 s.span.2)).2 < 35 ∨
            (analyze (sliceStr localSeq s.span.1 s.span.2)).2 > 65 then 5 else 0)) ∧
    ((score_candidates optTm maxC analyze localSeq cands).map
        LeftScored.score).Pairwise (fun a b => a ≤ b) ∧
    score_candidates optTm maxC analyze localSeq cands =
      ((List.insertionSort stableLe
          ((cands.map (mkScored optTm analyze localSeq)).enum)).map Prod.snd).take
        maxC ∧
    (score_candidates optTm maxC analyze localSeq cands).length =
      min maxC cands.length := by
  refine ⟨?_, ?_, score_candidates_stable optTm maxC analyze localSeq cands, ?_⟩
  · intro s hs
    rw [List.mem_map] at hs
    obtain ⟨c, _, rfl⟩ := hs
    rfl
  · have hs : List.Sorted scoreLe
        (List.insertionSort scoreLe (cands.map (mkScored optTm analyze localSeq))) :=
      List.sorted_insertionSort scoreLe _
    unfold score_candidates
    rw [List.pairwise_map]
    have hp : List.Pairwise scoreLe
        (List.insertionSort scoreLe (cands.map (mkScored optTm analyze localSeq))) := hs
    exact (List.Pairwise.take hp).imp (fun h => h)
  · unfold score_candidates
    rw [List.length_take, (List.perm_insertionSort scoreLe _).length_eq,
      List.length_map]

/- ----------------------------------------------------------------------
`primer_junction.py`, manual pairing LEFT x RIGHT (lines 211-271)
---------------------------------------------------------------------- -/

/-- A parsed RIGHT primer candidate (the dict built on lines 201-207). -/
structure RightCand where
  seq : String
  intervalLocal : Int × Int
  tm : ℚ
  gc : ℚ
  idx : Nat
deriving DecidableEq

/-- De-duplication key `(left_seq, right_seq, product_size)`. -/
abbrev PairKey := String × String × Int

/-- One emitted primer pair (the dict appended on lines 253-261; thermodynamic
re-analysis fields are oracle output and carry no logic, so they are not
modelled). -/
structure PairRec where
  pairNumber : Nat
  leftSeq : String
  leftInterval : Int × Int
  rightSeq : String
  rightInterval : Int × Int
  productSize : Int
deriving DecidableEq

/-- Inner pairing loop over the right candidates for one left candidate:
Tm-compatibility filter, product-size window, set-based de-duplication,
stop at 10 pairs. -/
def innerPair (winStart pmin pmax : Int) (maxTmDiff : ℚ) (localSeq : String)
    (l : LeftScored) :
    List RightCand → List PairKey → List PairRec → List PairKey × List PairRec
  | [], seen, pairs => (seen, pairs)
  | rc :: rest, seen, pairs =>
    if 10 ≤ pairs.length then (seen, pairs)
    else if maxTmDiff < |l.tm - rc.tm| then
      innerPair winStart pmin pmax maxTmDiff localSeq l rest seen pairs
    else if rc.intervalLocal.2 - l.span.1 < pmin ∨
        pmax < rc.intervalLocal.2 - l.span.1 then
      innerPair winStart pmin pmax maxTmDiff localSeq l rest seen pairs
    else if (sliceStr localSeq l.span.1 l.span.2, rc.seq,
        rc.intervalLocal.2 - l.span.1) ∈ seen then
      innerPair winStart pmin pmax maxTmDiff localSeq l rest seen pairs
    else
      innerPair winStart pmin pmax maxTmDiff localSeq l rest
        ((sliceStr localSeq l.span.1 l.span.2, rc.seq,
          rc.intervalLocal.2 - l.span.1) :: seen)
        (pairs ++ [{ pairNumber := pairs.length + 1
                     leftSeq := sliceStr localSeq l.span.1 l.span.2
                     leftInterval := (winStart + l.span.1, winStart + l.span.2)
                     rightSeq := rc.seq
                     rightInterval := (winStart + rc.intervalLocal.1,
                       winStart + rc.intervalLocal.2)
                     productSize := rc.intervalLocal.2 - l.span.1 }])

/-- Outer pairing loop over the scored left candidates. -/
def outerPair (winStart pmin pmax : Int) (maxTmDiff : ℚ) (localSeq : String)
    (rights : List RightCand) :
    List LeftScored → List PairKey → List PairRec → List PairRec
  | [], _, pairs => pairs
  | l :: rest, seen, pairs =>
    if 10 ≤ pairs.length then pairs
    else
      let sp := innerPair winStart pmin pmax maxTmDiff localSeq l rights seen pairs
      outerPair winStart pmin pmax maxTmDiff localSeq rights rest sp.1 sp.2

/-- Embedding of the whole manual pairing stage (the Pair Matcher). -/
def pairAll (winStart pmin pmax : Int) (maxTmDiff : ℚ) (localSeq : String)
    (lefts : List LeftScored) (rights : List RightCand) : List PairRec :=
  outerPair winStart pmin pmax maxTmDiff localSeq rights lefts [] []

/-- The product-size facts carried by every emitted pair. -/
def PairProdOk (pmin pmax : Int) (p : PairRec) : Prop :=
  p.productSize = p.rightInterval.2 - p.leftInterval.1 ∧
    pmin ≤ p.productSize ∧ p.productSize ≤ pmax

/-- De-duplication key of an emitted pair. -/
def pairKey (p : PairRec) : PairKey := (p.leftSeq, p.rightSeq, p.productSize)

theorem innerPair_prod (winStart pmin pmax : Int) (maxTmDiff : ℚ)
    (localSeq : String) (l : LeftScored) :
    ∀ (rcs : List RightCand) (seen : List PairKey) (pairs : List PairRec),
      (∀ p ∈ pairs, PairProdOk pmin pmax p) →
      ∀ p ∈ (innerPair winStart pmin pmax maxTmDiff localSeq l rcs seen pairs).2,
        PairProdOk pmin pmax p := by
  intro rcs
  induction rcs with
  | nil => intro seen pairs h; exact h
  | cons rc rest ih =>
    intro seen pairs h
    rw [innerPair]
    split_ifs with h1 h2 h3 h4
    · exact h
    · exact ih seen pairs h
    · exact ih seen pairs h
    · exact ih seen pairs h
    · apply ih
      intro p hp
      rw [List.mem_append] at hp
      rcases hp with hp | hp
      · exact h p hp
      · rw [List.mem_singleton] at hp
        subst hp
        refine ⟨?_, ?_, ?_⟩
        · show rc.intervalLocal.2 - l.span.1 =
            (winStart + rc.intervalLocal.2) - (winStart + l.span.1)
          ring
        · show pmin ≤ rc.intervalLocal.2 - l.span.1
          omega
        · show rc.intervalLocal.2 - l.span.1 ≤ pmax
          omega

theorem outerPair_prod (winStart pmin pmax : Int) (maxTmDiff : ℚ)
    (localSeq : String) (rights : List RightCand) :
    ∀ (lefts : List LeftScored) (seen : List PairKey) (pairs : List PairRec),
      (∀ p ∈ pairs, PairProdOk pmin pmax p) →
      ∀ p ∈ outerPair winStart pmin pmax maxTmDiff localSeq rights lefts seen pairs,
        PairProdOk pmin pmax p := by
  intro lefts
  induction lefts with
  | nil => intro seen pairs h; exact h
  | cons l rest ih =>
    intro seen pairs h
    rw [outerPair]
    split_ifs with h1
    · exact h
    · exact ih _ _ (innerPair_prod winStart pmin pmax maxTmDiff localSeq l
        rights seen pairs h)

theorem pairAll_prod (winStart pmin pmax : Int) (maxTmDiff : ℚ)
    (localSeq : String) (lefts : List LeftScored) (rights : List RightCand) :
    ∀ p ∈ pairAll winStart pmin pmax maxTmDiff localSeq lefts rights,
      PairProdOk pmin pmax p :=
  outerPair_prod winStart pmin pmax maxTmDiff localSeq rights lefts [] []
    (by intro p hp; simp at hp)

/-- The de-duplication invariant: emitted keys are distinct and all recorded
in the `seen` set. -/
def DedupInv (seen : List PairKey) (pairs : List PairRec) : Prop :=
  (pairs.map pairKey).Nodup ∧ ∀ p ∈ pairs, pairKey p ∈ seen

theorem innerPair_dedup (winStart pmin pmax : Int) (maxTmDiff : ℚ)
    (localSeq : String) (l : LeftScored) :
    ∀ (rcs : List RightCand) (seen : List PairKey) (pairs : List PairRec),
      DedupInv seen pairs →
      DedupInv (innerPair winStart pmin pmax maxTmDiff localSeq l rcs seen pairs).1
        (innerPair winStart pmin pmax maxTmDiff localSeq l rcs seen pairs).2 := by
  intro rcs
  induction rcs with
  | nil => intro seen pairs h; exact h
  | cons rc rest ih =>
    intro seen pairs h
    rw [innerPair]
    split_ifs with h1 h2 h3 h4
    · exact h
    · exact ih seen pairs h
    · exact ih seen pairs h
    · exact ih seen pairs h
    · apply ih
      obtain ⟨hnd, hseen⟩ := h
      constructor
      · rw [List.map_append, List.map_singleton]
        rw [List.nodup_append]
        refine ⟨hnd, List.nodup_singleton _, ?_⟩
        intro k hk hk'
        rw [List.mem_singleton] at hk'
        rw [List.mem_map] at hk
        obtain ⟨p, hp, hpk⟩ := hk
        apply h4
        have : pairKey p ∈ seen := hseen p hp
        rw [hpk] at this
        rw [hk'] at this
        exact this
      · intro p hp
        rw [List.mem_append] at hp
        rcases hp with hp | hp
        · exact List.mem_cons_of_mem _ (hseen p hp)
        · rw [List.mem_singleton] at hp
          subst hp
          exact List.mem_cons_self _ _

theorem outerPair_dedup (winStart pmin pmax : Int) (maxTmDiff : ℚ)
    (localSeq : String) (rights : List RightCand) :
    ∀ (lefts : List LeftScored) (seen : List PairKey) (pairs : List PairRec),
      DedupInv seen pairs →
      ((outerPair winStart pmin pmax maxTmDiff localSeq rights lefts seen
        pairs).map pairKey).Nodup := by
  intro lefts
  induction lefts with
  | nil => intro seen pairs h; exact h.1
  | cons l rest ih =>
    intro seen pairs h
    rw [outerPair]
    split_ifs with h1
    · exact h.1
    · exact ih _ _ (innerPair_dedup winStart pmin pmax maxTmDiff localSeq l
        rights seen pairs h)

/-- Claim C7: the Pair Matcher never emits two pairs with the same
`(left sequence, right sequence, product size)` key, and feeding the same
left candidate twice against one right candidate yields exactly one pair. -/
theorem pair_matcher_dedup_spec :
    (∀ (winStart pmin pmax : Int) (maxTmDiff : ℚ) (localSeq : String)
      (lefts : List LeftScored) (rights : List RightCand),
      ((pairAll winStart pmin pmax maxTmDiff localSeq lefts rights).map
        pairKey).Nodup) ∧
    (pairAll 0 10 100 5 "ACGTACGTACGTACGTACGT"
      [⟨0, (0, 18), 58⟩, ⟨0, (0, 18), 58⟩]
      [⟨"GGGG", (20, 40), 58, 50, 0⟩]).length = 1 := by
  constructor
  · intro winStart pmin pmax maxTmDiff localSeq lefts rights
    exact outerPair_dedup winStart pmin pmax maxTmDiff localSeq rights lefts [] []
      ⟨List.nodup_nil, by intro p hp; simp at hp⟩
  · decide

/-- Counterexample to claim C5 as stated: with `max_tm_diff = 5.0`, a left
candidate at 58.0 and a right candidate at 64.0 are NOT paired (the Tm filter
rejects |58 - 64| = 6 > 5); the identical configuration with a right
candidate at 62.0 does produce a pair, showing the Tm filter is the sole
reason for the rejection. -/
theorem pair_matcher_tm_counterexample :
    pairAll 0 10 100 5 "ACGTACGTACGTACGTACGT" [⟨0, (0, 18), 58⟩]
        [⟨"GGGG", (20, 40), 64, 50, 0⟩] = [] ∧
    (pairAll 0 10 100 5 "ACGTACGTACGTACGTACGT" [⟨0, (0, 18), 58⟩]
        [⟨"GGGG", (20, 40), 62, 50, 0⟩]).length = 1 := by
  constructor
  · decide
  · decide

/-- Claim C5 (amended): under the Tm-compatibility filter with
`max_tm_diff = 5.0`, a left candidate at 58.0 is rejected against right
candidates at 64.0 and at 70.0 (both differ by more than 5.0) and is paired
with a right candidate within the threshold, e.g. at 62.0. -/
theorem pair_matcher_tm_spec :
    pairAll 0 10 100 5 "ACGTACGTACGTACGTACGT" [⟨0, (0, 18), 58⟩]
        [⟨"GGGG", (20, 40), 64, 50, 0⟩] = [] ∧
    pairAll 0 10 100 5 "ACGTACGTACGTACGTACGT" [⟨0, (0, 18), 58⟩]
        [⟨"GGGG", (20, 40), 70, 50, 0⟩] = [] ∧
    (pairAll 0 10 100 5 "ACGTACGTACGTACGTACGT" [⟨0, (0, 18), 58⟩]
        [⟨"GGGG", (20, 40), 62, 50, 0⟩]).length = 1 := by
  refine ⟨by decide, by decide, by decide⟩

/- ----------------------------------------------------------------------
`primer_junction.py`, `design_junction_primer_pairs` end to end.
The primer3 oracle is a function parameter: `analyze` models
`analyze_primer` (melting temperature, GC percent of one oligo), `oracle`
models the independent RIGHT-primer search, receiving the widened product
range and returning `PRIMER_RIGHT_NUM_RETURNED` with the parsed candidates.
---------------------------------------------------------------------- -/

/-- Embedding of `_clamp(v, lo, hi) = max(lo, min(hi, v))`. -/
def pyClamp (v lo hi : Int) : Int := max lo (min hi v)

/-- Template cleaning `(template or "").upper().replace(" ", "")`. -/
def cleanTemplate (t : String) : String :=
  String.mk ((t.data.map Char.toUpper).filter (fun c => c ≠ ' '))

/-- Result of `design_junction_primer_pairs`: pair count, pair list and the
optional `error` entry of the returned dict. -/
structure DesignResult where
  numPairs : Nat
  pairs : List PairRec
  error : Option String
deriving DecidableEq

/-- Embedding of `design_junction_primer_pairs`.  `primerMin`, `primerMax`
and `optTm` are `PRIMER_MIN_SIZE`, `PRIMER_MAX_SIZE` and `PRIMER_OPT_TM`
from the primer3 argument dict (defaults 18, 25, 62.0). -/
def design_junction_primer_pairs (analyze : String → ℚ × ℚ)
    (oracle : Int → Int → Nat × List RightCand)
    (template : String) (junctionPos : Int)
    (overlapMin overlapMax productMin productMax leftPad rightPad : Int)
    (maxCandidates : Nat) (primerMin primerMax : Int) (optTm : ℚ) :
    DesignResult :=
  let t := cleanTemplate template
  let nFull : Int := (t.length : Int)
  if t.length = 0 then ⟨0, [], some "Empty template"⟩
  else if ¬(0 < junctionPos ∧ junctionPos < nFull) then
    ⟨0, [], some "junction_pos out of range"⟩
  else
    let winStart := pyClamp (junctionPos - leftPad) 0 nFull
    let winEnd := pyClamp (junctionPos + rightPad) 0 nFull
    let localSeq := sliceStr t winStart winEnd
    let jLocal := junctionPos - winStart
    let n : Int := (localSeq.length : Int)
    let candidates :=
      junction_candidates n jLocal overlapMin overlapMax primerMin primerMax
    if candidates = [] then ⟨0, [], some "No junction candidates in window"⟩
    else
      let scored := score_candidates optTm maxCandidates analyze localSeq candidates
      if n - jLocal < primerMin then
        ⟨0, [], some "Window too small for right primers"⟩
      else
        let oracleOut :=
          oracle (max 50 (productMin - 50)) (min 1000 (productMax + 300))
        if oracleOut.1 = 0 then
          ⟨0, [], some "No RIGHT primers found in downstream region"⟩
        else
          let pairs := pairAll winStart productMin productMax 5 localSeq scored
            oracleOut.2
          ⟨pairs.length, pairs, none⟩

/-- Claim C6: every emitted pair's `product_size` equals
`right.interval_end - left.interval_start` and lies within the
caller-supplied `[product_min, product_max]` window, even though the oracle
is consulted with the widened range
`(max 50 (product_min - 50), min 1000 (product_max + 300))` (as visible in
the embedding, which hands the oracle exactly that widened range). -/
theorem product_size_spec (analyze : String → ℚ × ℚ)
    (oracle : Int → Int → Nat × List RightCand)
    (template : String) (junctionPos : Int)
    (overlapMin overlapMax productMin productMax leftPad rightPad : Int)
    (maxCandidates : Nat) (primerMin primerMax : Int) (optTm : ℚ) :
    ∀ p ∈ (design_junction_primer_pairs analyze oracle template junctionPos
        overlapMin overlapMax productMin productMax leftPad rightPad
        maxCandidates primerMin primerMax optTm).pairs,
      p.productSize = p.rightInterval.2 - p.leftInterval.1 ∧
        productMin ≤ p.productSize ∧ p.productSize ≤ productMax := by
  intro p hp
  simp only [design_junction_primer_pairs] at hp
  split_ifs at hp
  all_goals first
  | exact pairAll_prod _ _ _ _ _ _ _ p hp
  | simp at hp

/-- Witness for C6: a concrete end-to-end run emitting one pair. -/
theorem product_size_spec_witness :
    (⟨1, "AAAAAAAAAAAAAAAAAA", (11, 29), "GGGG", (25, 35), 24⟩ : PairRec) ∈
      (design_junction_primer_pairs (fun _ => (60, 50))
        (fun _ _ => (1, [⟨"GGGG", (25, 35), 58, 50, 0⟩]))
        "AAAAAAAAAAAAAAAAAAAAAAAAAAAAAAAAAAAAAAAA" 20 9 9 20 30 250 400 25
        18 25 60).pairs ∧
    ((24 : Int) = (35 : Int) - 11 ∧ (20 : Int) ≤ 24 ∧ (24 : Int) ≤ 30) :=
  ⟨by decide,
    product_size_spec (fun _ => (60, 50))
      (fun _ _ => (1, [⟨"GGGG", (25, 35), 58, 50, 0⟩]))
      "AAAAAAAAAAAAAAAAAAAAAAAAAAAAAAAAAAAAAAAA" 20 9 9 20 30 250 400 25
      18 25 60 ⟨1, "AAAAAAAAAAAAAAAAAA", (11, 29), "GGGG", (25, 35), 24⟩
      (by decide)⟩

/-- Claim C9: an empty (length-zero after cleaning) template, or a junction
position not strictly inside the template, returns a zero-pair error result
at once; the result does not depend on the oracle or analysis parameters
(no candidate generation or primer search contributes to it), and the
embedding is a total function (no exception). -/
theorem input_validation_spec (analyze : String → ℚ × ℚ)
    (oracle : Int → Int → Nat × List RightCand)
    (template : String) (junctionPos : Int)
    (overlapMin overlapMax productMin productMax leftPad rightPad : Int)
    (maxCandidates : Nat) (primerMin primerMax : Int) (optTm : ℚ) :
    ((cleanTemplate template).length = 0 →
      design_junction_primer_pairs analyze oracle template junctionPos
        overlapMin overlapMax productMin productMax leftPad rightPad
        maxCandidates primerMin primerMax optTm =
      ⟨0, [], some "Empty template"⟩) ∧
    ((cleanTemplate template).length ≠ 0 →
      ¬(0 < junctionPos ∧
          junctionPos < ((cleanTemplate template).length : Int)) →
      design_junction_primer_pairs analyze oracle template junctionPos
        overlapMin overlapMax productMin productMax leftPad rightPad
        maxCandidates primerMin primerMax optTm =
      ⟨0, [], some "junction_pos out of range"⟩) := by
  constructor
  · intro h0
    simp only [design_junction_primer_pairs]
    rw [if_pos h0]
  · intro h0 h1
    simp only [design_junction_primer_pairs]
    rw [if_neg h0, if_pos h1]

/-- Witness for C9 at an empty template and at an out-of-range junction. -/
theorem input_validation_spec_witness :
    ((cleanTemplate "  ").length = 0 ∧
      design_junction_primer_pairs (fun _ => (60, 50)) (fun _ _ => (0, []))
        "  " 5 6 12 80 220 250 400 25 18 25 62 =
      ⟨0, [], some "Empty template"⟩) ∧
    ((cleanTemplate "ACGT").length ≠ 0 ∧
      ¬((0 : Int) < 9 ∧ (9 : Int) < ((cleanTemplate "ACGT").length : Int)) ∧
      design_junction_primer_pairs (fun _ => (60, 50)) (fun _ _ => (0, []))
        "ACGT" 9 6 12 80 220 250 400 25 18 25 62 =
      ⟨0, [], some "junction_pos out of range"⟩) :=
  ⟨⟨by decide,
    (input_validation_spec (fun _ => (60, 50)) (fun _ _ => (0, [])) "  " 5
      6 12 80 220 250 400 25 18 25 62).1 (by decide)⟩,
   ⟨by decide, by decide,
    (input_validation_spec (fun _ => (60, 50)) (fun _ _ => (0, [])) "ACGT" 9
      6 12 80 220 250 400 25 18 25 62).2 (by decide) (by decide)⟩⟩

/-- The local-window start computed inside `design_junction_primer_pairs`. -/
def designWinStart (template : String) (junctionPos leftPad : Int) : Int :=
  pyClamp (junctionPos - leftPad) 0 ((cleanTemplate template).length : Int)

/-- The local-window end computed inside `design_junction_primer_pairs`. -/
def designWinEnd (template : String) (junctionPos rightPad : Int) : Int :=
  pyClamp (junctionPos + rightPad) 0 ((cleanTemplate template).length : Int)

/-- The local window `template[win_start:win_end]`. -/
def designLocalSeq (template : String) (junctionPos leftPad rightPad : Int) :
    String :=
  sliceStr (cleanTemplate template) (designWinStart template junctionPos leftPad)
    (designWinEnd template junctionPos rightPad)

/-- The junction offset inside the local window. -/
def designJLocal (template : String) (junctionPos leftPad : Int) : Int :=
  junctionPos - designWinStart template junctionPos leftPad

/-- The junction-spanning candidate set computed inside
`design_junction_primer_pairs`. -/
def designCandidates (template : String)
    (junctionPos overlapMin overlapMax leftPad rightPad primerMin primerMax :
      Int) : List (Int × Int) :=
  junction_candidates
    ((designLocalSeq template junctionPos leftPad rightPad).length : Int)
    (designJLocal template junctionPos leftPad) overlapMin overlapMax
    primerMin primerMax

/-- Counterexample to claim C8 as stated: a run in which junction candidates
and RIGHT candidates both exist but every pair is filtered out (here by the
Tm-compatibility check) returns `num_pairs = 0` with NO reason entry: the
all-pairs-filtered zero result is a bare empty result. -/
theorem zero_result_counterexample :
    (design_junction_primer_pairs (fun _ => (60, 50))
        (fun _ _ => (1, [⟨"GGGG", (25, 35), 1000, 50, 0⟩]))
        "AAAAAAAAAAAAAAAAAAAAAAAAAAAAAAAAAAAAAAAA" 20 9 9 20 30 250 400 25
        18 25 60).numPairs = 0 ∧
    (design_junction_primer_pairs (fun _ => (60, 50))
        (fun _ _ => (1, [⟨"GGGG", (25, 35), 1000, 50, 0⟩]))
        "AAAAAAAAAAAAAAAAAAAAAAAAAAAAAAAAAAAAAAAA" 20 9 9 20 30 250 400 25
        18 25 60).error = none := by
  constructor
  · decide
  · decide

/-- Claim C8 (amended): an empty junction-candidate set and a zero-result
RIGHT-primer search each produce a zero-pair result with its own
distinguishing reason string, and those two reasons differ; however, the
path on which candidates and RIGHT primers exist but all pairs are filtered
out returns `num_pairs = 0` with no reason (see the counterexample). -/
theorem zero_result_reasons_spec (analyze : String → ℚ × ℚ)
    (oracle : Int → Int → Nat × List RightCand)
    (template : String) (junctionPos : Int)
    (overlapMin overlapMax productMin productMax leftPad rightPad : Int)
    (maxCandidates : Nat) (primerMin primerMax : Int) (optTm : ℚ)
    (h0 : (cleanTemplate template).length ≠ 0)
    (h1 : 0 < junctionPos ∧
      junctionPos < ((cleanTemplate template).length : Int)) :
    (designCandidates template junctionPos overlapMin overlapMax leftPad
        rightPad primerMin primerMax = [] →
      design_junction_primer_pairs analyze oracle template junctionPos
        overlapMin overlapMax productMin productMax leftPad rightPad
        maxCandidates primerMin primerMax optTm =
      ⟨0, [], some "No junction candidates in window"⟩) ∧
    (designCandidates template junctionPos overlapMin overlapMax leftPad
        rightPad primerMin primerMax ≠ [] →
      ¬(((designLocalSeq template junctionPos leftPad rightPad).length : Int) -
          designJLocal template junctionPos leftPad < primerMin) →
      (oracle (max 50 (productMin - 50)) (min 1000 (productMax + 300))).1 = 0 →
      design_junction_primer_pairs analyze oracle template junctionPos
        overlapMin overlapMax productMin productMax leftPad rightPad
        maxCandidates primerMin primerMax optTm =
      ⟨0, [], some "No RIGHT primers found in downstream region"⟩) ∧
    ("No junction candidates in window" ≠
      "No RIGHT primers found in downstream region") := by
  refine ⟨?_, ?_, by decide⟩
  · intro hc
    simp only [designCandidates, designLocalSeq, designWinStart, designWinEnd,
      designJLocal] at hc
    simp only [design_junction_primer_pairs]
    rw [if_neg h0, if_neg (not_not_intro h1), if_pos hc]
  · intro hc hwin horacle
    simp only [designCandidates, designLocalSeq, designWinStart, designWinEnd,
      designJLocal] at hc hwin
    simp only [design_junction_primer_pairs]
    rw [if_neg h0, if_neg (not_not_intro h1), if_neg hc, if_neg hwin,
      if_pos horacle]

/-- Witness for C8's amended theorem: a template too short for any junction
candidate hits the no-candidates reason; a run with a zero-result RIGHT
search hits the other reason. -/
theorem zero_result_reasons_spec_witness :
    ((cleanTemplate "ACGTACGT").length ≠ 0 ∧
      ((0 : Int) < 4 ∧ (4 : Int) < ((cleanTemplate "ACGTACGT").length : Int)) ∧
      (designCandidates "ACGTACGT" 4 6 12 250 400 18 25 = [] →
        design_junction_primer_pairs (fun _ => (60, 50)) (fun _ _ => (1, []))
          "ACGTACGT" 4 6 12 80 220 250 400 25 18 25 62 =
        ⟨0, [], some "No junction candidates in window"⟩) ∧
      design_junction_primer_pairs (fun _ => (60, 50)) (fun _ _ => (1, []))
        "ACGTACGT" 4 6 12 80 220 250 400 25 18 25 62 =
      ⟨0, [], some "No junction candidates in window"⟩) ∧
    (design_junction_primer_pairs (fun _ => (60, 50)) (fun _ _ => (0, []))
        "AAAAAAAAAAAAAAAAAAAAAAAAAAAAAAAAAAAAAAAA" 20 9 9 20 30 250 400 25
        18 25 60 =
      ⟨0, [], some "No RIGHT primers found in downstream region"⟩) :=
  ⟨⟨by decide, ⟨by decide, by decide⟩,
    (zero_result_reasons_spec (fun _ => (60, 50)) (fun _ _ => (1, []))
      "ACGTACGT" 4 6 12 80 220 250 400 25 18 25 62 (by decide)
      ⟨by decide, by decide⟩).1,
    (zero_result_reasons_spec (fun _ => (60, 50)) (fun _ _ => (1, []))
      "ACGTACGT" 4 6 12 80 220 250 400 25 18 25 62 (by decide)
      ⟨by decide, by decide⟩).1 (by decide)⟩,
   (zero_result_reasons_spec (fun _ => (60, 50)) (fun _ _ => (0, []))
      "AAAAAAAAAAAAAAAAAAAAAAAAAAAAAAAAAAAAAAAA" 20 9 9 20 30 250 400 25
      18 25 60 (by decide) ⟨by decide, by decide⟩).2.1 (by decide) (by decide)
      (by decide)⟩

/- ----------------------------------------------------------------------
`ensembl_api.py`, `cds_annotations_in_transcript_coords`:
genomic CDS intervals -> spliced transcript coordinates, strand-aware
---------------------------------------------------------------------- -/

/-- Two closed genomic intervals do not overlap:
`max(a.start, b.start) > min(a.end, b.end)`. -/
def IntervalDisjoint (a b : Int × Int) : Prop := min a.2 b.2 < max a.1 b.1

instance : DecidableRel IntervalDisjoint := fun a b => by
  unfold IntervalDisjoint; infer_instance

/-- The inner `k` scan for one exon: walk the remaining CDS intervals while
`cds_start ≤ exon_end`, emitting the overlap of each with the exon, shifted
by the running `exon_offset` (0-based, end-exclusive). -/
def exonOverlaps (exS exE off : Int) (cds : List (Int × Int)) :
    List (Int × Int) :=
  (cds.takeWhile (fun c => c.1 ≤ exE)).filterMap (fun c =>
    if max exS c.1 ≤ min exE c.2 then
      some (off + (max exS c.1 - exS), off + (min exE c.2 - exS) + 1)
    else none)

/-- The outer exon walk with the persistent `j` pointer: CDS intervals whose
end lies before the exon start are dropped for good, the exon's overlaps are
emitted, and the offset advances by the exon length. -/
def annGo : List (Int × Int) → List (Int × Int) → Int → List (Int × Int)
  | [], _, _ => []
  | ex :: exs, cds, off =>
    let rest := cds.dropWhile (fun c => c.2 < ex.1)
    exonOverlaps ex.1 ex.2 off rest ++ annGo exs rest (off + (ex.2 - ex.1 + 1))

/-- Embedding of `cds_annotations_in_transcript_coords`: sort exons and CDS,
project, and on the minus strand reflect every interval through the total
spliced length and re-sort. -/
def cds_annotations_in_transcript_coords (exons cds : List (Int × Int))
    (strand : String) : List (Int × Int) :=
  if exons = [] ∨ cds = [] then []
  else
    let ann := annGo (sortPairs exons) (sortPairs cds) 0
    if strand = "-" then
      sortPairs (ann.map (fun p =>
        (((sortPairs exons).map intervalLen).sum - p.2,
          ((sortPairs exons).map intervalLen).sum - p.1)))
    else ann

theorem sum_intervalLen_nonneg (l : List (Int × Int))
    (h : ∀ p ∈ l, p.1 ≤ p.2) : 0 ≤ (l.map intervalLen).sum := by
  apply List.sum_nonneg
  intro x hx
  rw [List.mem_map] at hx
  obtain ⟨p, hp, rfl⟩ := hx
  have := h p hp
  unfold intervalLen
  omega

theorem exonOverlaps_mem (exS exE off : Int) (cds : List (Int × Int))
    (hse : exS ≤ exE) :
    ∀ p ∈ exonOverlaps exS exE off cds,
      off ≤ p.1 ∧ p.1 < p.2 ∧ p.2 ≤ off + (exE - exS + 1) := by
  intro p hp
  unfold exonOverlaps at hp
  rw [List.mem_filterMap] at hp
  obtain ⟨c, _, hc⟩ := hp
  split_ifs at hc with hov
  rw [Option.some_inj] at hc
  subst hc
  simp only
  omega

theorem exonOverlaps_pairwise (exS exE off : Int) (cds : List (Int × Int))
    (hchain : cds.Pairwise (fun a b => a.2 < b.1)) :
    (exonOverlaps exS exE off cds).Pairwise (fun a b => a.2 ≤ b.1) := by
  unfold exonOverlaps
  rw [List.pairwise_filterMap]
  have htw : (cds.takeWhile (fun c => c.1 ≤ exE)).Pairwise
      (fun a b => a.2 < b.1) :=
    List.Pairwise.sublist (List.takeWhile_prefix _).sublist hchain
  refine htw.imp ?_
  intro a b hab p hp q hq
  rw [Option.mem_def] at hp hq
  split_ifs at hp hq with h1 h2
  rw [Option.some_inj] at hp hq
  subst hp
  subst hq
  simp only
  omega

theorem annGo_mem : ∀ (exs cds : List (Int × Int)) (off : Int),
    (∀ p ∈ exs, p.1 ≤ p.2) →
    ∀ p ∈ annGo exs cds off,
      off ≤ p.1 ∧ p.1 < p.2 ∧ p.2 ≤ off + (exs.map intervalLen).sum := by
  intro exs
  induction exs with
  | nil => intro cds off _ p hp; simp [annGo] at hp
  | cons ex exs ih =>
    intro cds off hwf p hp
    rw [annGo] at hp
    rw [List.mem_append] at hp
    have hse : ex.1 ≤ ex.2 := hwf ex (by simp)
    have htail : ∀ q ∈ exs, q.1 ≤ q.2 := fun q hq =>
      hwf q (List.mem_cons_of_mem ex hq)
    have hsum : 0 ≤ (exs.map intervalLen).sum := sum_intervalLen_nonneg exs htail
    simp only [List.map_cons, List.sum_cons]
    have hlen : intervalLen ex = ex.2 - ex.1 + 1 := rfl
    rcases hp with hp | hp
    · have := exonOverlaps_mem ex.1 ex.2 off _ hse p hp
      omega
    · have := ih _ (off + (ex.2 - ex.1 + 1)) htail p hp
      omega

theorem annGo_pairwise : ∀ (exs cds : List (Int × Int)) (off : Int),
    (∀ p ∈ exs, p.1 ≤ p.2) →
    cds.Pairwise (fun a b => a.2 < b.1) →
    (annGo exs cds off).Pairwise (fun a b => a.2 ≤ b.1) := by
  intro exs
  induction exs with
  | nil => intro cds off _ _; simp [annGo]
  | cons ex exs ih =>
    intro cds off hwf hchain
    rw [annGo]
    rw [List.pairwise_append]
    have hse : ex.1 ≤ ex.2 := hwf ex (by simp)
    have htail : ∀ q ∈ exs, q.1 ≤ q.2 := fun q hq =>
      hwf q (List.mem_cons_of_mem ex hq)
    have hrest : (cds.dropWhile (fun c => c.2 < ex.1)).Pairwise
        (fun a b => a.2 < b.1) :=
      List.Pairwise.sublist (List.dropWhile_suffix _).sublist hchain
    refine ⟨exonOverlaps_pairwise _ _ _ _ hrest, ih _ _ htail hrest, ?_⟩
    intro a ha b hb
    have hA := exonOverlaps_mem ex.1 ex.2 off _ hse a ha
    have hB := annGo_mem exs _ (off + (ex.2 - ex.1 + 1)) htail b hb
    omega

theorem sorted_disjoint_chain (l : List (Int × Int))
    (hwf : ∀ p ∈ l, p.1 ≤ p.2) (hdisj : l.Pairwise IntervalDisjoint) :
    (sortPairs l).Pairwise (fun a b => a.2 < b.1) := by
  have hsorted : (sortPairs l).Pairwise tupLe := sortPairs_sorted l
  have hdisjsym : ∀ {x y : Int × Int},
      IntervalDisjoint x y → IntervalDisjoint y x := by
    intro x y h
    unfold IntervalDisjoint at *
    omega
  have hdisj' : (sortPairs l).Pairwise IntervalDisjoint :=
    ((sortPairs_perm l).pairwise_iff hdisjsym).2 hdisj
  have hwf' : ∀ p ∈ sortPairs l, p.1 ≤ p.2 := fun p hp =>
    hwf p ((sortPairs_perm l).mem_iff.1 hp)
  refine (hsorted.and hdisj').imp_of_mem ?_
  intro a b ha hb hab
  have h1 := hwf' a ha
  have h2 := hwf' b hb
  obtain ⟨ht, hd⟩ := hab
  unfold tupLe at ht
  unfold IntervalDisjoint at hd
  omega

theorem reflected_sorted_pairwise (ann : List (Int × Int)) (T : Int)
    (hp : ann.Pairwise (fun a b => a.2 ≤ b.1))
    (hwf : ∀ p ∈ ann, p.1 < p.2) :
    (sortPairs (ann.map (fun p => (T - p.2, T - p.1)))).Pairwise
      (fun a b => a.2 ≤ b.1) := by
  have hwfr : ∀ p ∈ ann.map (fun p => (T - p.2, T - p.1)), p.1 < p.2 := by
    intro p hp'
    rw [List.mem_map] at hp'
    obtain ⟨q, hq, rfl⟩ := hp'
    have := hwf q hq
    simp only
    omega
  have hflip : (ann.map (fun p => (T - p.2, T - p.1))).Pairwise
      (fun a b => b.2 ≤ a.1) := by
    rw [List.pairwise_map]
    refine hp.imp ?_
    intro a b hab
    simp only
    omega
  have hsym : (ann.map (fun p => (T - p.2, T - p.1))).Pairwise
      (fun a b => a.2 ≤ b.1 ∨ b.2 ≤ a.1) :=
    hflip.imp (fun h => Or.inr h)
  have hsym' : (sortPairs (ann.map (fun p => (T - p.2, T - p.1)))).Pairwise
      (fun a b => a.2 ≤ b.1 ∨ b.2 ≤ a.1) := by
    refine ((sortPairs_perm _).pairwise_iff ?_).2 hsym
    intro x y hxy
    tauto
  have hsorted : (sortPairs (ann.map (fun p => (T - p.2, T - p.1)))).Pairwise
      tupLe := sortPairs_sorted _
  have hwfs : ∀ p ∈ sortPairs (ann.map (fun p => (T - p.2, T - p.1))),
      p.1 < p.2 := fun p hq => hwfr p ((sortPairs_perm _).mem_iff.1 hq)
  refine (hsorted.and hsym').imp_of_mem ?_
  intro a b ha hb hab
  have h1 := hwfs a ha
  have h2 := hwfs b hb
  obtain ⟨ht, hd⟩ := hab
  unfold tupLe at ht
  omega

theorem cds_ann_minus_eq (exons cds : List (Int × Int)) :
    cds_annotations_in_transcript_coords exons cds "-" =
      sortPairs ((cds_annotations_in_transcript_coords exons cds "+").map
        (fun p => (((sortPairs exons).map intervalLen).sum - p.2,
          ((sortPairs exons).map intervalLen).sum - p.1))) := by
  unfold cds_annotations_in_transcript_coords
  by_cases h : exons = [] ∨ cds = []
  · rw [if_pos h, if_pos h]
    rfl
  · rw [if_neg h, if_neg h]
    rw [if_pos rfl, if_neg (by decide : ¬("+" : String) = "-")]

/-- Claim C2 (amended: the CDS intervals are additionally assumed pairwise
non-overlapping and well-formed, which the original claim omitted — see the
counterexample): the minus-strand projection is the plus-strand projection
reflected through the total spliced length (and re-sorted ascending), and
for either strand the projected intervals are pairwise non-overlapping,
sorted ascending, and contained in `[0, total_len)`. -/
theorem cds_projection_spec (exons cds : List (Int × Int)) (strand : String)
    (hexwf : ∀ p ∈ exons, p.1 ≤ p.2)
    (hexdisj : exons.Pairwise IntervalDisjoint)
    (hcdswf : ∀ p ∈ cds, p.1 ≤ p.2)
    (hcdsdisj : cds.Pairwise IntervalDisjoint)
    (hcover : ∀ c ∈ cds, ∀ x : Int, c.1 ≤ x → x ≤ c.2 →
      ∃ p ∈ exons, p.1 ≤ x ∧ x ≤ p.2) :
    cds_annotations_in_transcript_coords exons cds "-" =
      sortPairs ((cds_annotations_in_transcript_coords exons cds "+").map
        (fun p => (((sortPairs exons).map intervalLen).sum - p.2,
          ((sortPairs exons).map intervalLen).sum - p.1))) ∧
    (cds_annotations_in_transcript_coords exons cds strand).Pairwise
      (fun a b => a.2 ≤ b.1) ∧
    (∀ p ∈ cds_annotations_in_transcript_coords exons cds strand,
      0 ≤ p.1 ∧ p.1 < p.2 ∧ p.2 ≤ (exons.map intervalLen).sum) := by
  have hexwfs : ∀ p ∈ sortPairs exons, p.1 ≤ p.2 := fun p hp =>
    hexwf p ((sortPairs_perm exons).mem_iff.1 hp)
  have hchain : (sortPairs cds).Pairwise (fun a b => a.2 < b.1) :=
    sorted_disjoint_chain cds hcdswf hcdsdisj
  have hannP : (annGo (sortPairs exons) (sortPairs cds) 0).Pairwise
      (fun a b => a.2 ≤ b.1) :=
    annGo_pairwise (sortPairs exons) (sortPairs cds) 0 hexwfs hchain
  have hannM : ∀ p ∈ annGo (sortPairs exons) (sortPairs cds) 0,
      0 ≤ p.1 ∧ p.1 < p.2 ∧
        p.2 ≤ ((sortPairs exons).map intervalLen).sum := by
    intro p hp
    have := annGo_mem (sortPairs exons) (sortPairs cds) 0 hexwfs p hp
    omega
  have hsum : ((sortPairs exons).map intervalLen).sum =
      (exons.map intervalLen).sum :=
    ((sortPairs_perm exons).map intervalLen).sum_eq
  refine ⟨cds_ann_minus_eq exons cds, ?_, ?_⟩
  · unfold cds_annotations_in_transcript_coords
    by_cases h : exons = [] ∨ cds = []
    · rw [if_pos h]
      exact List.Pairwise.nil
    · rw [if_neg h]
      by_cases hs : strand = "-"
      · rw [if_pos hs]
        exact reflected_sorted_pairwise _ _ hannP (fun p hp => (hannM p hp).2.1)
      · rw [if_neg hs]
        exact hannP
  · unfold cds_annotations_in_transcript_coords
    by_cases h : exons = [] ∨ cds = []
    · rw [if_pos h]
      intro p hp
      simp at hp
    · rw [if_neg h]
      by_cases hs : strand = "-"
      · rw [if_pos hs]
        intro p hp
        have hp' := (sortPairs_perm _).mem_iff.1 hp
        rw [List.mem_map] at hp'
        obtain ⟨q, hq, rfl⟩ := hp'
        have := hannM q hq
        simp only
        omega
      · rw [if_neg hs]
        intro p hp
        have := hannM p hp
        omega

/-- Counterexample to claim C2 as stated: with exons `[(1,10)]` and the
mutually overlapping CDS intervals `[(2,5), (3,6)]` — inputs satisfying every
hypothesis the claim states (exons well-formed, pairwise non-overlapping,
CDS contained in exon coverage) — the plus-strand projection is
`[(1,5), (2,6)]`, whose members overlap, violating the claimed pairwise
non-overlap invariant. -/
theorem cds_projection_counterexample :
    (∀ p ∈ ([((1 : Int), (10 : Int))] : List (Int × Int)), p.1 ≤ p.2) ∧
    ([((1 : Int), (10 : Int))] : List (Int × Int)).Pairwise IntervalDisjoint ∧
    (∀ c ∈ ([((2 : Int), (5 : Int)), ((3 : Int), (6 : Int))] :
        List (Int × Int)),
      ∀ x : Int, c.1 ≤ x → x ≤ c.2 →
        ∃ p ∈ ([((1 : Int), (10 : Int))] : List (Int × Int)),
          p.1 ≤ x ∧ x ≤ p.2) ∧
    cds_annotations_in_transcript_coords [(1, 10)] [(2, 5), (3, 6)] "+" =
      [(1, 5), (2, 6)] ∧
    ¬ (cds_annotations_in_transcript_coords [(1, 10)] [(2, 5), (3, 6)]
        "+").Pairwise (fun a b => a.2 ≤ b.1) := by
  refine ⟨by decide, by decide, ?_, by decide, by decide⟩
  intro c hc x h1 h2
  refine ⟨(1, 10), by simp, ?_, ?_⟩
  · rw [List.mem_cons, List.mem_singleton] at hc
    rcases hc with rfl | rfl
    · simp only at h1 h2 ⊢
      omega
    · simp only at h1 h2 ⊢
      omega
  · rw [List.mem_cons, List.mem_singleton] at hc
    rcases hc with rfl | rfl
    · simp only at h1 h2 ⊢
      omega
    · simp only at h1 h2 ⊢
      omega

/-- Witness for C2's amended theorem at a concrete two-exon minus-strand
transcript. -/
theorem cds_projection_spec_witness :
    ((∀ p ∈ ([((1 : Int), (10 : Int)), ((21 : Int), (30 : Int))] :
        List (Int × Int)), p.1 ≤ p.2) ∧
      ([((1 : Int), (10 : Int)), ((21 : Int), (30 : Int))] :
        List (Int × Int)).Pairwise IntervalDisjoint ∧
      (∀ p ∈ ([((4 : Int), (10 : Int)), ((21 : Int), (24 : Int))] :
        List (Int × Int)), p.1 ≤ p.2) ∧
      ([((4 : Int), (10 : Int)), ((21 : Int), (24 : Int))] :
        List (Int × Int)).Pairwise IntervalDisjoint) ∧
    (cds_annotations_in_transcript_coords [(1, 10), (21, 30)]
        [(4, 10), (21, 24)] "-").Pairwise (fun a b => a.2 ≤ b.1) := by
  refine ⟨⟨by decide, by decide, by decide, by decide⟩, ?_⟩
  refine (cds_projection_spec [(1, 10), (21, 30)] [(4, 10), (21, 24)] "-"
    (by decide) (by decide) (by decide) (by decide) ?_).2.1
  intro c hc x h1 h2
  rw [List.mem_cons, List.mem_singleton] at hc
  rcases hc with rfl | rfl
  · refine ⟨(1, 10), by simp, ?_, ?_⟩
    · simp only at h1 ⊢
      omega
    · simp only at h2 ⊢
      omega
  · refine ⟨(21, 30), by simp, ?_, ?_⟩
    · simp only at h1 ⊢
      omega
    · simp only at h2 ⊢
      omega

end Primerool
